import Mathlib

/-!
Verification of the minima HTTP router core: route registration (`Routes.Add`),
prefix-fallback resolution (`Routes.Get`), per-bucket matching (`matchRoutes`)
and the token-cleaning helper (`cleanArray`), shallowly embedded from the Go
source.  Go strings are modelled as lists of characters, the Go
`map[string][]Route` as an association list with unique keys, and the
unbounded `for` loop of `Get` as a fuel-indexed recursion whose fuel
(`path.length + 1`) is proved sufficient; a `none` result of `Routes.Get`
marks a run that would fault (fuel exhaustion or an out-of-range index),
and totality is proved separately.
-/

set_option synthInstance.maxSize 512

namespace Minima

/-- Go strings, modelled as lists of characters. -/
abbrev Str := List Char

/-- Go `strings.HasPrefix s p`. -/
def hasPref : Str → Str → Bool
  | _, [] => true
  | [], _ :: _ => false
  | c :: s, d :: p => c == d && hasPref s p

/-- Go `strings.TrimPrefix s p`: drop `p` from the front of `s` when present. -/
def trimPref (s p : Str) : Str :=
  if hasPref s p then s.drop p.length else s

/-- Go `strings.Split s "/"`: split on every slash, keeping empty tokens. -/
def splitSlash : Str → List Str
  | [] => [[]]
  | c :: rest =>
    if c = '/' then [] :: splitSlash rest
    else
      match splitSlash rest with
      | [] => [[c]]
      | t :: ts => (c :: t) :: ts

/-- Go `strings.Join parts "/"`. -/
def joinSlash : List Str → Str
  | [] => []
  | [s] => s
  | s :: t :: rest => s ++ '/' :: joinSlash (t :: rest)

/-- Go `strings.LastIndex s "/"`: index of the last slash, `none` for Go's `-1`. -/
def lastSlashIdx : Str → Option Nat
  | [] => none
  | c :: rest =>
    match lastSlashIdx rest with
    | some i => some (i + 1)
    | none => if c = '/' then some 0 else none

/-- Go struct `param`: one pattern token, fixed (literal) or variable (capture). -/
structure param where
  name : Str
  fixed : Bool
deriving DecidableEq, Repr

/-- Go struct `Route`: one registered pattern (static part `pfx`, the Go field
`prefix`, plus the parsed tokens `partNames` and the handler `function`). -/
structure Route (H : Type) where
  pfx : Str
  partNames : List param
  function : H
deriving DecidableEq

/-- Go struct `Routes`: the route table, `roots map[string][]Route` modelled as
an association list from bucket key to bucket. -/
structure Routes (H : Type) where
  roots : List (Str × List (Route H))
deriving DecidableEq

/-- Go `NewRoutes()`: the empty route table. -/
def NewRoutes {H : Type} : Routes H := ⟨[]⟩

/-- Go map read `r.roots[k]` together with its `ok` flag. -/
def rootsFind {H : Type} : List (Str × List (Route H)) → Str → Option (List (Route H))
  | [], _ => none
  | (k', rs) :: rest, k => if k' = k then some rs else rootsFind rest k

/-- Go `r.roots[k] = append(r.roots[k], e)`: append to the bucket at `k`,
creating it when absent. -/
def rootsAppend {H : Type} : List (Str × List (Route H)) → Str → Route H →
    List (Str × List (Route H))
  | [], k, e => [(k, [e])]
  | (k', rs) :: rest, k, e =>
    if k' = k then (k', rs ++ [e]) :: rest else (k', rs) :: rootsAppend rest k e

/-- Loop body of Go `Routes.Add`: fold over the split pattern carrying the
`paramsFound` flag, returning (`rootParts`, `varParts`). -/
def addLoop : List Str → Bool → List Str × List param
  | [], _ => ([], [])
  | p :: rest, found =>
    let found' := found || hasPref p [':']
    let pr := addLoop rest found'
    if found' then
      if hasPref p [':'] then (pr.1, ⟨trimPref p [':'], false⟩ :: pr.2)
      else (pr.1, ⟨p, true⟩ :: pr.2)
    else (p :: pr.1, pr.2)

/-- Static bucket key Go `Routes.Add` computes for a pattern: the pre-parameter
tokens rejoined with slashes. -/
def rootOf (path : Str) : Str :=
  joinSlash (addLoop (splitSlash path) false).1

/-- Route entry Go `Routes.Add` constructs for a pattern and handler. -/
def mkRoute {H : Type} (path : Str) (f : H) : Route H :=
  ⟨rootOf path, (addLoop (splitSlash path) false).2, f⟩

/-- Go `Routes.Add`: parse the pattern and append the new entry to the bucket
keyed by its static part. -/
def Routes.Add {H : Type} (r : Routes H) (path : Str) (f : H) : Routes H :=
  ⟨rootsAppend r.roots (rootOf path) (mkRoute path f)⟩

/-- Go `cleanArray`: keep the non-empty tokens in order. -/
def cleanArray : List Str → List Str
  | [] => []
  | s :: rest => if s = [] then cleanArray rest else s :: cleanArray rest

/-- Go map write `m[k] = v`: overwrite the binding at `k`, or append it. -/
def mapInsert : List (Str × Str) → Str → Str → List (Str × Str)
  | [], k, v => [(k, v)]
  | (k', v') :: rest, k, v =>
    if k' = k then (k, v) :: rest else (k', v') :: mapInsert rest k v

/-- Inner loop of Go `matchRoutes` over one entry's `partNames`, reading the
raw token list `params` at index `i`.  `none` models the panic of an
out-of-range read, `some none` the `continue outer` on a fixed-token mismatch,
and `some (some m)` a full match with captured map `m`. -/
def matchSegs : List param → Nat → List Str → List (Str × Str) →
    Option (Option (List (Str × Str)))
  | [], _, _, acc => some (some acc)
  | p :: ps, i, params, acc =>
    match params[i]? with
    | none => none
    | some tok =>
      if p.fixed then
        if tok = p.name then matchSegs ps (i + 1) params acc
        else some none
      else matchSegs ps (i + 1) params (mapInsert acc p.name tok)

/-- Raw token list Go `matchRoutes` computes for one entry: the path with the
entry's static part stripped, then one leading slash stripped, split on
slashes. -/
def suffixToks (path pfx : Str) : List Str :=
  splitSlash (trimPref (trimPref path pfx) ['/'])

/-- Go `matchRoutes`: try the bucket's entries in order; for each, split the
path's suffix after the entry's static part into raw tokens, compare the
cleaned token count, then run the per-token loop.  `none` models a panic. -/
def matchRoutes {H : Type} (path : Str) :
    List (Route H) → Option (Option H × Option (List (Str × Str)) × Bool)
  | [] => some (none, none, false)
  | r :: rest =>
    if (cleanArray (suffixToks path r.pfx)).length = r.partNames.length then
      match matchSegs r.partNames 0 (suffixToks path r.pfx) [] with
      | none => none
      | some none => matchRoutes path rest
      | some (some m) => some (some r.function, some m, true)
    else matchRoutes path rest

/-- Loop of Go `Routes.Get`: probe the bucket map at `remaining`, on a hit
hand the full original path to `matchRoutes`, otherwise truncate `remaining`
at its last slash and retry.  The fuel bounds the number of iterations;
exhausting it yields `none`, which `getLoop_isSome` rules out for the fuel
`Routes.Get` supplies. -/
def getLoop {H : Type} (roots : List (Str × List (Route H))) (path : Str) :
    Nat → Str → Option (Option H × Option (List (Str × Str)) × Bool)
  | 0, _ => none
  | fuel + 1, remaining =>
    match rootsFind roots remaining with
    | some routes => matchRoutes path routes
    | none =>
      if remaining.length < 2 then some (none, none, false)
      else
        match lastSlashIdx remaining with
        | none => some (none, none, false)
        | some index =>
          if index > 0 then getLoop roots path fuel (remaining.take index)
          else getLoop roots path fuel ['/']

/-- Go `Routes.Get`: run the truncation loop starting from the full path. -/
def Routes.Get {H : Type} (r : Routes H) (path : Str) :
    Option (Option H × Option (List (Str × Str)) × Bool) :=
  getLoop r.roots path (path.length + 1) path

/-- Sequence of `remaining` values the truncation loop probes, longest first,
with the same fuel discipline as `getLoop`. -/
def truncSeq : Nat → Str → List Str
  | 0, _ => []
  | fuel + 1, remaining =>
    remaining ::
      (if remaining.length < 2 then []
       else
         match lastSlashIdx remaining with
         | none => []
         | some index =>
           if index > 0 then truncSeq fuel (remaining.take index)
           else truncSeq fuel ['/'])

/-- Bucket the resolver ends up scanning: the first probed truncation of the
path that is a key of the table. -/
def selectedBucket {H : Type} (r : Routes H) (path : Str) : Option (List (Route H)) :=
  (truncSeq (path.length + 1) path).findSome? (fun k => rootsFind r.roots k)

/-- Fixed-token comparison of one entry against the raw token list, written as
a boolean scan: every fixed part must equal the raw token at its index. -/
def fixedOk : List param → Nat → List Str → Bool
  | [], _, _ => true
  | p :: ps, i, params =>
    (if p.fixed then params[i]? = some p.name else true) && fixedOk ps (i + 1) params

/-- Spec §4.3 satisfaction of one entry by a path: the cleaned suffix token
count equals the entry's part count and every fixed part matches its raw
token. -/
def entrySat {H : Type} (path : Str) (r : Route H) : Bool :=
  ((cleanArray (suffixToks path r.pfx)).length = r.partNames.length : Bool) &&
    fixedOk r.partNames 0 (suffixToks path r.pfx)

/-- Route table with every bucket keyed by the empty string removed. -/
def dropEmptyKey {H : Type} (roots : List (Str × List (Route H))) :
    List (Str × List (Route H)) :=
  roots.filter (fun e => !(e.1 = [] : Bool))

/-- Table built by a sequence of `Add` calls starting from the empty table. -/
def TableFromList {H : Type} (l : List (Str × H)) : Routes H :=
  l.foldl (fun t qg => t.Add qg.1 qg.2) NewRoutes

/-- Pattern containing no parameter token: no split token starts with `:`. -/
def noParamTok (p : Str) : Bool :=
  (splitSlash p).all (fun t => !hasPref t [':'])

/-- Provenance invariant for tables built by `Add`: every entry of every
bucket was produced by `Add` on some registered (pattern, handler) pair, and
sits in the bucket keyed by its pattern's static part. -/
def tableInv {H : Type} (t : Routes H) (l : List (Str × H)) : Prop :=
  ∀ (k : Str) (rs : List (Route H)) (r : Route H),
    rootsFind t.roots k = some rs → r ∈ rs →
    ∃ qg, qg ∈ l ∧ r = mkRoute qg.1 qg.2 ∧ rootOf qg.1 = k

/-! Basic facts about the string helpers. -/

theorem splitSlash_ne_nil (s : Str) : splitSlash s ≠ [] := by
  cases s with
  | nil => simp [splitSlash]
  | cons c rest =>
    simp only [splitSlash]
    split
    · simp
    · split <;> simp_all

theorem joinSlash_splitSlash (s : Str) : joinSlash (splitSlash s) = s := by
  induction s with
  | nil => rfl
  | cons c rest ih =>
    simp only [splitSlash]
    split
    · rename_i hc
      rcases h : splitSlash rest with _ | ⟨t, ts⟩
      · exact absurd h (splitSlash_ne_nil rest)
      · rw [h] at ih
        subst hc
        simp [joinSlash, ← ih]
    · rcases h : splitSlash rest with _ | ⟨t, ts⟩
      · exact absurd h (splitSlash_ne_nil rest)
      · rw [h] at ih
        cases ts with
        | nil => simpa [joinSlash] using congrArg (c :: ·) ih
        | cons u us => simpa [joinSlash] using congrArg (c :: ·) ih

theorem cleanArray_length_le (a : List Str) : (cleanArray a).length ≤ a.length := by
  induction a with
  | nil => simp [cleanArray]
  | cons s rest ih =>
    simp only [cleanArray]
    split
    · exact Nat.le_succ_of_le ih
    · simpa using Nat.succ_le_succ ih

theorem lastSlashIdx_lt {s : Str} {i : Nat} (h : lastSlashIdx s = some i) :
    i < s.length := by
  induction s generalizing i with
  | nil => simp [lastSlashIdx] at h
  | cons c rest ih =>
    simp only [lastSlashIdx] at h
    rcases h' : lastSlashIdx rest with _ | j <;> rw [h'] at h
    · by_cases hc : c = '/'
      · simp only [if_pos hc, Option.some.injEq] at h
        simp only [List.length_cons]
        omega
      · simp [hc] at h
    · simp only [Option.some.injEq] at h
      have h2 := ih h'
      simp only [List.length_cons]
      omega

theorem lastSlashIdx_zero {s : Str} (h : lastSlashIdx s = some 0) :
    ∃ t, s = '/' :: t := by
  cases s with
  | nil => simp [lastSlashIdx] at h
  | cons c rest =>
    simp only [lastSlashIdx] at h
    rcases h' : lastSlashIdx rest with _ | j <;> rw [h'] at h
    · by_cases hc : c = '/'
      · exact ⟨rest, by rw [hc]⟩
      · simp [hc] at h
    · simp at h

theorem hasPref_refl (s : Str) : hasPref s s = true := by
  induction s with
  | nil => rfl
  | cons c rest ih => simp [hasPref, ih]

theorem trimPref_self (s : Str) : trimPref s s = [] := by
  simp [trimPref, hasPref_refl]

theorem trimPref_nil (p : Str) : trimPref [] p = [] := by
  cases p with
  | nil => rfl
  | cons d q => simp [trimPref, hasPref]

/-! Facts about the bucket map. -/

theorem rootsFind_append_self {H : Type} (roots : List (Str × List (Route H)))
    (k : Str) (e : Route H) :
    rootsFind (rootsAppend roots k e) k = some ((rootsFind roots k).getD [] ++ [e]) := by
  induction roots with
  | nil => simp [rootsAppend, rootsFind]
  | cons kv rest ih =>
    obtain ⟨k', rs⟩ := kv
    simp only [rootsAppend]
    by_cases hk : k' = k
    · simp [hk, rootsFind]
    · simp [hk, rootsFind, ih]

theorem rootsFind_append_ne {H : Type} (roots : List (Str × List (Route H)))
    (k k' : Str) (e : Route H) (h : k' ≠ k) :
    rootsFind (rootsAppend roots k e) k' = rootsFind roots k' := by
  have hne : ¬(k = k') := fun hh => h hh.symm
  induction roots with
  | nil => simp [rootsAppend, rootsFind, hne]
  | cons kv rest ih =>
    obtain ⟨k₀, rs⟩ := kv
    by_cases hk : k₀ = k
    · subst hk
      simp [rootsAppend, rootsFind, hne]
    · simp only [rootsAppend, if_neg hk]
      by_cases hk' : k₀ = k' <;> simp [rootsFind, hk', ih]

theorem rootsFind_dropEmpty {H : Type} (roots : List (Str × List (Route H)))
    (k : Str) (h : k ≠ []) :
    rootsFind (dropEmptyKey roots) k = rootsFind roots k := by
  have hne : ¬(([] : Str) = k) := fun hh => h hh.symm
  induction roots with
  | nil => simp [dropEmptyKey, rootsFind]
  | cons kv rest ih =>
    obtain ⟨k₀, rs⟩ := kv
    simp only [dropEmptyKey, List.filter_cons] at *
    by_cases h0 : k₀ = []
    · subst h0
      simpa [rootsFind, hne] using ih
    · by_cases hk : k₀ = k <;> simp [rootsFind, h0, hk, ih, h]

/-! Facts about the per-entry token loop. -/

theorem matchSegs_cases (parts : List param) (params : List Str) :
    ∀ (i : Nat) (acc : List (Str × Str)), i + parts.length ≤ params.length →
      (fixedOk parts i params = true ∧
        ∃ m, matchSegs parts i params acc = some (some m)) ∨
      (fixedOk parts i params = false ∧ matchSegs parts i params acc = some none) := by
  induction parts with
  | nil =>
    intro i acc _
    exact Or.inl ⟨rfl, acc, rfl⟩
  | cons p ps ih =>
    intro i acc h
    have hlt : i < params.length := by
      simp only [List.length_cons] at h
      omega
    rcases htok : params[i]? with _ | tok
    · rw [List.getElem?_eq_none_iff] at htok
      omega
    · have htv : params[i]? = some tok := htok
      by_cases hfix : p.fixed
      · by_cases heq : tok = p.name
        · have hrec := ih (i + 1) acc (by simp only [List.length_cons] at h; omega)
          have hms : matchSegs (p :: ps) i params acc = matchSegs ps (i + 1) params acc := by
            simp [matchSegs, htv, hfix, heq]
          have hfo : fixedOk (p :: ps) i params = fixedOk ps (i + 1) params := by
            simp [fixedOk, hfix, htv, heq]
          rw [hms, hfo]
          exact hrec
        · refine Or.inr ⟨?_, ?_⟩
          · have : ¬(params[i]? = some p.name) := by
              rw [htv]
              simp [heq]
            simp [fixedOk, hfix, this]
          · simp [matchSegs, htv, hfix, heq]
      · have hrec := ih (i + 1) (mapInsert acc p.name tok)
          (by simp only [List.length_cons] at h; omega)
        have hms : matchSegs (p :: ps) i params acc =
            matchSegs ps (i + 1) params (mapInsert acc p.name tok) := by
          simp [matchSegs, htv, hfix]
        have hfo : fixedOk (p :: ps) i params = fixedOk ps (i + 1) params := by
          simp [fixedOk, hfix]
        rw [hms, hfo]
        exact hrec

theorem fixedOk_false_of_mismatch (parts : List param) (params : List Str) :
    ∀ (j i : Nat) (p : param), parts[i]? = some p → p.fixed = true →
      params[j + i]? ≠ some p.name → fixedOk parts j params = false := by
  induction parts with
  | nil =>
    intro j i p hp
    simp at hp
  | cons q qs ih =>
    intro j i p hp hfix hne
    cases i with
    | zero =>
      simp only [List.getElem?_cons_zero, Option.some.injEq] at hp
      subst hp
      simp only [Nat.add_zero] at hne
      simp [fixedOk, hfix, hne]
    | succ i' =>
      simp only [List.getElem?_cons_succ] at hp
      have hqs : fixedOk qs (j + 1) params = false := by
        refine ih (j + 1) i' p hp hfix ?_
        have : j + 1 + i' = j + (i' + 1) := by omega
        rw [this]
        exact hne
      simp [fixedOk, hqs]

/-! Facts about the per-bucket matcher. -/

theorem matchRoutes_isSome {H : Type} (path : Str) (routes : List (Route H)) :
    (matchRoutes path routes).isSome := by
  induction routes with
  | nil => simp [matchRoutes]
  | cons r rest ih =>
    simp only [matchRoutes]
    by_cases hc : (cleanArray (suffixToks path r.pfx)).length = r.partNames.length
    · rw [if_pos hc]
      have hb : 0 + r.partNames.length ≤ (suffixToks path r.pfx).length := by
        have := cleanArray_length_le (suffixToks path r.pfx)
        omega
      rcases matchSegs_cases r.partNames (suffixToks path r.pfx) 0 [] hb with
        ⟨_, m, hm⟩ | ⟨_, hm⟩
      · rw [hm]
        simp
      · rw [hm]
        exact ih
    · rw [if_neg hc]
      exact ih

theorem matchRoutes_skip {H : Type} (path : Str) (r : Route H) (rest : List (Route H))
    (h : entrySat path r = false) :
    matchRoutes path (r :: rest) = matchRoutes path rest := by
  by_cases hc : (cleanArray (suffixToks path r.pfx)).length = r.partNames.length
  · have hb : 0 + r.partNames.length ≤ (suffixToks path r.pfx).length := by
      have := cleanArray_length_le (suffixToks path r.pfx)
      omega
    have hfo : fixedOk r.partNames 0 (suffixToks path r.pfx) = false := by
      simp [entrySat, hc] at h
      exact h
    rcases matchSegs_cases r.partNames (suffixToks path r.pfx) 0 [] hb with
      ⟨hft, _⟩ | ⟨_, hm⟩
    · rw [hft] at hfo
      simp at hfo
    · simp [matchRoutes, if_pos hc, hm]
  · simp [matchRoutes, if_neg hc]

theorem matchRoutes_hit {H : Type} (path : Str) (r : Route H) (rest : List (Route H))
    (h : entrySat path r = true) :
    ∃ m, matchRoutes path (r :: rest) = some (some r.function, some m, true) := by
  have hc : (cleanArray (suffixToks path r.pfx)).length = r.partNames.length := by
    simp only [entrySat, Bool.and_eq_true, decide_eq_true_eq] at h
    exact h.1
  have hfo : fixedOk r.partNames 0 (suffixToks path r.pfx) = true := by
    simp only [entrySat, Bool.and_eq_true] at h
    exact h.2
  have hb : 0 + r.partNames.length ≤ (suffixToks path r.pfx).length := by
    have := cleanArray_length_le (suffixToks path r.pfx)
    omega
  rcases matchSegs_cases r.partNames (suffixToks path r.pfx) 0 [] hb with
    ⟨_, m, hm⟩ | ⟨hff, _⟩
  · exact ⟨m, by simp [matchRoutes, if_pos hc, hm]⟩
  · rw [hff] at hfo
    simp at hfo

theorem matchRoutes_false_iff {H : Type} (path : Str) (routes : List (Route H)) :
    matchRoutes path routes = some (none, none, false) ↔
      ∀ r ∈ routes, entrySat path r = false := by
  induction routes with
  | nil => simp [matchRoutes]
  | cons r rest ih =>
    by_cases hs : entrySat path r = true
    · obtain ⟨m, hm⟩ := matchRoutes_hit path r rest hs
      rw [hm]
      constructor
      · intro hq
        simp at hq
      · intro hall
        have := hall r (by simp)
        rw [hs] at this
        simp at this
    · have hf : entrySat path r = false := by
        revert hs
        cases entrySat path r <;> simp
      rw [matchRoutes_skip path r rest hf, ih]
      constructor
      · intro hall r' hr'
        rcases List.mem_cons.mp hr' with hr0 | hm
        · rw [hr0]
          exact hf
        · exact hall r' hm
      · intro hall r' hr'
        exact hall r' (List.mem_cons_of_mem _ hr')

theorem matchRoutes_append_skip {H : Type} (path : Str) (l₁ l₂ : List (Route H))
    (h : ∀ r ∈ l₁, entrySat path r = false) :
    matchRoutes path (l₁ ++ l₂) = matchRoutes path l₂ := by
  induction l₁ with
  | nil => simp
  | cons r rest ih =>
    rw [List.cons_append, matchRoutes_skip path r _ (h r (by simp))]
    exact ih (fun r' hr' => h r' (List.mem_cons_of_mem _ hr'))

/-! Facts about the truncation loop. -/

theorem getLoop_eq_find {H : Type} (roots : List (Str × List (Route H))) (path : Str) :
    ∀ (fuel : Nat) (remaining : Str), remaining.length < fuel →
      getLoop roots path fuel remaining =
        match (truncSeq fuel remaining).findSome? (fun k => rootsFind roots k) with
        | some rs => matchRoutes path rs
        | none => some (none, none, false) := by
  intro fuel
  induction fuel with
  | zero =>
    intro remaining h
    omega
  | succ n ih =>
    intro remaining h
    simp only [getLoop, truncSeq, List.findSome?_cons]
    rcases hf : rootsFind roots remaining with _ | rs
    · by_cases h2 : remaining.length < 2
      · simp [h2]
      · rcases hl : lastSlashIdx remaining with _ | index
        · simp [h2, hl]
        · have hidx := lastSlashIdx_lt hl
          by_cases hpos : index > 0
          · have htake : (remaining.take index).length < n := by
              rw [List.length_take]
              omega
            simp only [h2, if_neg h2, hl, hpos, if_pos hpos]
            exact ih (remaining.take index) htake
          · have hsl : (['/'] : Str).length < n := by
              simp only [List.length_cons, List.length_nil]
              omega
            simp only [h2, if_neg h2, hl, hpos, if_neg hpos]
            exact ih ['/'] hsl
    · simp [hf]

theorem truncSeq_head (fuel : Nat) (remaining : Str) (h : fuel ≠ 0) :
    (truncSeq fuel remaining).head? = some remaining := by
  cases fuel with
  | zero => exact absurd rfl h
  | succ n => simp [truncSeq]

theorem truncSeq_chain : ∀ (fuel : Nat) (remaining : Str),
    List.Chain' (fun a b => b <+: a ∧ b.length < a.length) (truncSeq fuel remaining) := by
  intro fuel
  induction fuel with
  | zero =>
    intro remaining
    simp [truncSeq]
  | succ n ih =>
    intro remaining
    simp only [truncSeq]
    rw [List.chain'_cons']
    refine ⟨?_, ?_⟩
    · intro b hb
      by_cases h2 : remaining.length < 2
      · simp [h2] at hb
      · rcases hl : lastSlashIdx remaining with _ | index
        · simp [h2, hl] at hb
        · have hidx := lastSlashIdx_lt hl
          by_cases hpos : index > 0
          · simp only [if_neg h2, hl, if_pos hpos] at hb
            rw [truncSeq_head n (remaining.take index) (by
              intro h0
              subst h0
              simp [truncSeq] at hb)] at hb
            simp only [Option.mem_def, Option.some.injEq] at hb
            subst hb
            refine ⟨List.take_prefix _ _, ?_⟩
            rw [List.length_take]
            omega
          · simp only [if_neg h2, hl, if_neg hpos] at hb
            have hz : index = 0 := by omega
            subst hz
            obtain ⟨t, ht⟩ := lastSlashIdx_zero hl
            rw [truncSeq_head n ['/'] (by
              intro h0
              subst h0
              simp [truncSeq] at hb)] at hb
            simp only [Option.mem_def, Option.some.injEq] at hb
            subst hb
            refine ⟨⟨t, ht.symm⟩, ?_⟩
            simp only [List.length_cons, List.length_nil]
            omega
    · by_cases h2 : remaining.length < 2
      · simp [h2]
      · rcases hl : lastSlashIdx remaining with _ | index
        · simp [h2, hl]
        · by_cases hpos : index > 0 <;> simp [h2, hl, hpos, ih]

theorem truncSeq_mem_ne_nil : ∀ (fuel : Nat) (remaining : Str), remaining ≠ [] →
    ∀ s ∈ truncSeq fuel remaining, s ≠ [] := by
  intro fuel
  induction fuel with
  | zero =>
    intro remaining _ s hs
    simp [truncSeq] at hs
  | succ n ih =>
    intro remaining hr s hs
    simp only [truncSeq, List.mem_cons] at hs
    rcases hs with hs | hs
    · rw [hs]
      exact hr
    · by_cases h2 : remaining.length < 2
      · simp [h2] at hs
      · rcases hl : lastSlashIdx remaining with _ | index
        · simp [h2, hl] at hs
        · have hidx := lastSlashIdx_lt hl
          by_cases hpos : index > 0
          · simp only [if_neg h2, hl, if_pos hpos] at hs
            refine ih (remaining.take index) ?_ s hs
            intro htk
            have := congrArg List.length htk
            rw [List.length_take] at this
            simp only [List.length_nil] at this
            omega
          · simp only [if_neg h2, hl, if_neg hpos] at hs
            exact ih ['/'] (by simp) s hs

theorem getLoop_dropEmpty {H : Type} (roots : List (Str × List (Route H))) (path : Str) :
    ∀ (fuel : Nat) (remaining : Str), remaining ≠ [] →
      getLoop (dropEmptyKey roots) path fuel remaining = getLoop roots path fuel remaining := by
  intro fuel
  induction fuel with
  | zero =>
    intro remaining _
    rfl
  | succ n ih =>
    intro remaining hr
    simp only [getLoop, rootsFind_dropEmpty roots remaining hr]
    rcases hf : rootsFind roots remaining with _ | rs
    · by_cases h2 : remaining.length < 2
      · simp [h2]
      · rcases hl : lastSlashIdx remaining with _ | index
        · simp [h2, hl]
        · have hidx := lastSlashIdx_lt hl
          by_cases hpos : index > 0
          · simp only [if_neg h2, hl, if_pos hpos]
            refine ih (remaining.take index) ?_
            intro htk
            have := congrArg List.length htk
            rw [List.length_take] at this
            simp only [List.length_nil] at this
            omega
          · simp only [if_neg h2, hl, if_neg hpos]
            exact ih ['/'] (by simp)
    · simp

theorem getLoop_isSome {H : Type} (roots : List (Str × List (Route H))) (path : Str)
    (fuel : Nat) (remaining : Str) (h : remaining.length < fuel) :
    (getLoop roots path fuel remaining).isSome := by
  rw [getLoop_eq_find roots path fuel remaining h]
  rcases hfs : (truncSeq fuel remaining).findSome? (fun k => rootsFind roots k) with _ | rs
  · simp
  · simpa using matchRoutes_isSome path rs

/-! Facts about registration. -/

theorem addLoop_no_params : ∀ (parts : List Str),
    (∀ t ∈ parts, hasPref t [':'] = false) → addLoop parts false = (parts, []) := by
  intro parts
  induction parts with
  | nil =>
    intro _
    rfl
  | cons p rest ih =>
    intro h
    have hp : hasPref p [':'] = false := h p (by simp)
    have hrest := ih (fun t ht => h t (List.mem_cons_of_mem _ ht))
    simp [addLoop, hp, hrest]

theorem addLoop_snd_nil : ∀ (parts : List Str),
    (addLoop parts false).2 = [] → (addLoop parts false).1 = parts := by
  intro parts
  induction parts with
  | nil =>
    intro _
    rfl
  | cons p rest ih =>
    intro h
    by_cases hp : hasPref p [':'] = true
    · simp [addLoop, hp] at h
    · have hp' : hasPref p [':'] = false := by
        revert hp
        cases hasPref p [':'] <;> simp
      simp only [addLoop, hp', Bool.false_or, if_neg (Bool.false_ne_true)] at h ⊢
      simpa using ih h

theorem rootOf_of_partNil {q : Str} (h : (addLoop (splitSlash q) false).2 = []) :
    rootOf q = q := by
  rw [rootOf, addLoop_snd_nil _ h, joinSlash_splitSlash]

theorem rootOf_noParam {p : Str} (h : noParamTok p = true) :
    rootOf p = p ∧ (addLoop (splitSlash p) false).2 = [] := by
  have hall : ∀ t ∈ splitSlash p, hasPref t [':'] = false := by
    intro t ht
    have := (List.all_eq_true.mp h) t ht
    revert this
    cases hasPref t [':'] <;> simp
  have := addLoop_no_params (splitSlash p) hall
  constructor
  · rw [rootOf, this, joinSlash_splitSlash]
  · rw [this]

theorem tableInv_nil {H : Type} : tableInv (NewRoutes : Routes H) [] := by
  intro k rs r hf
  simp [NewRoutes, rootsFind] at hf

theorem tableInv_add {H : Type} (t : Routes H) (l : List (Str × H)) (q : Str) (g : H)
    (h : tableInv t l) : tableInv (t.Add q g) (l ++ [(q, g)]) := by
  intro k rs r hf hr
  by_cases hk : k = rootOf q
  · subst hk
    rw [Routes.Add, rootsFind_append_self] at hf
    simp only [Option.some.injEq] at hf
    subst hf
    rcases List.mem_append.mp hr with hold | hnew
    · rcases hfind : rootsFind t.roots (rootOf q) with _ | rs₀
      · rw [hfind] at hold
        simp at hold
      · rw [hfind] at hold
        simp only [Option.getD_some] at hold
        obtain ⟨qg, hql, hrq, hroot⟩ := h (rootOf q) rs₀ r hfind hold
        exact ⟨qg, List.mem_append_left _ hql, hrq, hroot⟩
    · simp only [List.mem_singleton] at hnew
      exact ⟨(q, g), List.mem_append_right _ (by simp), hnew, rfl⟩
  · rw [Routes.Add, rootsFind_append_ne _ _ _ _ hk] at hf
    obtain ⟨qg, hql, hrq, hroot⟩ := h k rs r hf hr
    exact ⟨qg, List.mem_append_left _ hql, hrq, hroot⟩

theorem tableInv_foldl {H : Type} : ∀ (l l₀ : List (Str × H)) (t : Routes H),
    tableInv t l₀ →
    tableInv (l.foldl (fun t qg => t.Add qg.1 qg.2) t) (l₀ ++ l) := by
  intro l
  induction l with
  | nil =>
    intro l₀ t h
    simpa using h
  | cons qg rest ih =>
    intro l₀ t h
    have step : tableInv (t.Add qg.1 qg.2) (l₀ ++ [qg]) := by
      obtain ⟨q, g⟩ := qg
      exact tableInv_add t l₀ q g h
    have := ih (l₀ ++ [qg]) (t.Add qg.1 qg.2) step
    simpa [List.append_assoc] using this

theorem tableInv_fromList {H : Type} (l : List (Str × H)) :
    tableInv (TableFromList l) l := by
  have := tableInv_foldl l [] NewRoutes tableInv_nil
  simpa [TableFromList] using this

theorem get_of_found {H : Type} (r : Routes H) (path : Str) (rs : List (Route H))
    (hf : rootsFind r.roots path = some rs) :
    Routes.Get r path = matchRoutes path rs := by
  simp [Routes.Get, getLoop, hf]

theorem get_eq_selected {H : Type} (r : Routes H) (path : Str) :
    Routes.Get r path =
      match selectedBucket r path with
      | some rs => matchRoutes path rs
      | none => some (none, none, false) := by
  rw [Routes.Get, getLoop_eq_find r.roots path (path.length + 1) path (by omega)]
  rfl

/-! The claims. -/

/-- Claim C1: one-shot prefix fallback.  `Get` probes the truncations of the
path longest-first (each probed key is a prefix of the previous one and
strictly shorter); the first truncation that is an existing bucket key is the
only bucket considered — the per-bucket matcher receives the original full
path, and its result, match or no-match, is returned with no further
fallback; when no truncation is a key, not-found is returned. -/
theorem claim1_one_shot {H : Type} (r : Routes H) (path : Str) :
    (Routes.Get r path =
      match selectedBucket r path with
      | some rs => matchRoutes path rs
      | none => some (none, none, false)) ∧
    (truncSeq (path.length + 1) path).head? = some path ∧
    List.Chain' (fun a b => b <+: a ∧ b.length < a.length)
      (truncSeq (path.length + 1) path) := by
  refine ⟨get_eq_selected r path, truncSeq_head _ _ (by omega), truncSeq_chain _ _⟩

/-- Claim C2: totality.  For every route table (not only those built by
`Add`) and every path, `Get` completes with a result — the fuel never runs
out and no index read faults; and inside `matchRoutes`, whenever the
cleaned-length check has passed, the per-token loop reads only in-bounds
indices of the raw token list. -/
theorem claim2_total {H : Type} :
    (∀ (r : Routes H) (path : Str), (Routes.Get r path).isSome = true) ∧
    (∀ (parts : List param) (params : List Str) (acc : List (Str × Str)),
      (cleanArray params).length = parts.length →
      (matchSegs parts 0 params acc).isSome = true) := by
  constructor
  · intro r path
    exact getLoop_isSome r.roots path (path.length + 1) path (by omega)
  · intro parts params acc h
    have hb : 0 + parts.length ≤ params.length := by
      have := cleanArray_length_le params
      omega
    rcases matchSegs_cases parts params 0 acc hb with ⟨_, m, hm⟩ | ⟨_, hm⟩ <;> simp [hm]

/-- Claim C3, counterexample: with `/a/b` and `/a/:x/c` registered, the path
`/a/b/c` is satisfied (per the §4.3 rules) by the registered `/a/:x/c` entry,
yet `Get` returns found = false, because the one-shot fallback stops at the
`/a/b` bucket: found = false does not mean that no registered entry
satisfies the path. -/
theorem claim3_cex :
    entrySat ("/a/b/c".data) (mkRoute ("/a/:x/c".data) (1 : Nat)) = true ∧
    rootsFind
      (Routes.Add (Routes.Add (NewRoutes (H := Nat)) ("/a/b".data) 0) ("/a/:x/c".data) 1).roots
      (rootOf ("/a/:x/c".data)) = some [mkRoute ("/a/:x/c".data) 1] ∧
    Routes.Get (Routes.Add (Routes.Add (NewRoutes (H := Nat)) ("/a/b".data) 0)
      ("/a/:x/c".data) 1) ("/a/b/c".data) = some (none, none, false) := by
  decide

/-- Claim C3 (amended): found = false exactly when no entry of the selected
bucket — the first truncation of the path that is an existing bucket key —
satisfies the path per §4.3; and `Get` on the empty route table returns
`(nil, nil, false)` for every path. -/
theorem claim3_found_iff {H : Type} (r : Routes H) (path : Str) :
    ((Routes.Get r path = some (none, none, false)) ↔
      (∀ rs, selectedBucket r path = some rs → ∀ e ∈ rs, entrySat path e = false)) ∧
    Routes.Get (NewRoutes (H := H)) path = some (none, none, false) := by
  constructor
  · rw [get_eq_selected r path]
    rcases hsb : selectedBucket r path with _ | rs
    · simp
    · simp only []
      rw [matchRoutes_false_iff]
      constructor
      · intro hall rs' hrs'
        rw [Option.some_inj] at hrs'
        rw [← hrs']
        exact hall
      · intro hall
        exact hall rs rfl
  · rw [get_eq_selected]
    have hsel : selectedBucket (NewRoutes (H := H)) path = none := by
      rw [selectedBucket, List.findSome?_eq_none_iff]
      intro k _
      rfl
    rw [hsel]

/-- Claim C4, counterexample: registering the parameterless pattern `/a`
twice and resolving `/a` returns the handler registered first, not the one
just added — so `Add(p, h)` on an arbitrary table is not always answered by
`(h, {}, true)`. -/
theorem claim4_cex :
    Routes.Get (Routes.Add (Routes.Add (NewRoutes (H := Nat)) ("/a".data) 0) ("/a".data) 1)
      ("/a".data) = some (some 0, some [], true) ∧
    ¬(Routes.Get (Routes.Add (Routes.Add (NewRoutes (H := Nat)) ("/a".data) 0) ("/a".data) 1)
      ("/a".data) = some (some 1, some [], true)) := by
  decide

/-- Claim C4 (amended): round trip.  For every pattern `p` with no parameter
token, on any table built by `Add` calls in which the pattern `p` itself was
never registered, `Add(p, h)` followed by `Get(p)` returns `(h, {}, true)`. -/
theorem claim4_round_trip {H : Type} (l : List (Str × H)) (p : Str) (h : H)
    (hp : noParamTok p = true) (hfresh : ∀ g : H, (p, g) ∉ l) :
    Routes.Get (Routes.Add (TableFromList l) p h) p = some (some h, some [], true) := by
  obtain ⟨hroot, hnilseg⟩ := rootOf_noParam hp
  have hfind : rootsFind (Routes.Add (TableFromList l) p h).roots p =
      some ((rootsFind (TableFromList l).roots p).getD [] ++ [mkRoute p h]) := by
    show rootsFind (rootsAppend (TableFromList l).roots (rootOf p) (mkRoute p h)) p = _
    rw [hroot]
    exact rootsFind_append_self (TableFromList l).roots p (mkRoute p h)
  rw [get_of_found _ _ _ hfind]
  have hold : ∀ e ∈ (rootsFind (TableFromList l).roots p).getD [], entrySat p e = false := by
    rcases hfd : rootsFind (TableFromList l).roots p with _ | rs₀
    · simp
    · simp only [Option.getD_some]
      intro e he
      obtain ⟨⟨q, g⟩, hql, hrq, hrootq⟩ := tableInv_fromList l p rs₀ e hfd he
      have hqseg : (addLoop (splitSlash q) false).2 ≠ [] := by
        intro hq0
        have hqp : q = p := by rw [← rootOf_of_partNil hq0, hrootq]
        have hmem : (p, g) ∈ l := by
          rw [← hqp]
          exact hql
        exact hfresh g hmem
      have hpfx : e.pfx = p := by
        rw [hrq]
        exact hrootq
      have hsuf : suffixToks p e.pfx = [[]] := by
        rw [hpfx, suffixToks, trimPref_self, trimPref_nil]
        rfl
      have hlen : ¬((cleanArray (suffixToks p e.pfx)).length = e.partNames.length) := by
        rw [hsuf]
        intro hh
        have h0 : (0 : Nat) = e.partNames.length := hh
        have : e.partNames = [] := List.length_eq_zero.mp h0.symm
        rw [hrq] at this
        exact hqseg this
      simp [entrySat, hlen]
  rw [matchRoutes_append_skip p _ _ hold]
  have hmk : mkRoute p h = ⟨p, [], h⟩ := by
    rw [mkRoute, hroot, hnilseg]
  rw [hmk]
  have hsuf2 : suffixToks p p = [[]] := by
    rw [suffixToks, trimPref_self, trimPref_nil]
    rfl
  simp [matchRoutes, hsuf2, cleanArray, matchSegs]

/-- Witness for claim C4's amended round trip at a concrete instance. -/
theorem claim4_round_trip_witness :
    Routes.Get (Routes.Add (TableFromList ([] : List (Str × Nat))) ("/a".data) 7) ("/a".data) =
      some (some 7, some [], true) :=
  claim4_round_trip [] ("/a".data) 7 (by decide) (fun g hg => by simp at hg)

/-- Claim C5: capture correctness.  After `Add("/users/:id", h)`,
`Get("/users/42")` returns `(h, {"id": "42"}, true)`; after
`Add("/users/:id/posts/:postId", h)`, `Get("/users/42/posts/7")` returns
`(h, {"id": "42", "postId": "7"}, true)`. -/
theorem claim5_captures :
    Routes.Get (Routes.Add (NewRoutes (H := Nat)) ("/users/:id".data) 0) ("/users/42".data) =
      some (some 0, some [("id".data, "42".data)], true) ∧
    Routes.Get (Routes.Add (NewRoutes (H := Nat)) ("/users/:id/posts/:postId".data) 0)
      ("/users/42/posts/7".data) =
      some (some 0, some [("id".data, "42".data), ("postId".data, "7".data)], true) := by
  decide

/-- Claim C6: fixed-segment enforcement.  An entry with a fixed part at index
`i` whose literal differs from the raw incoming token at index `i` is
abandoned and the next entry of the bucket is tried; concretely, after
`Add("/a/:b/c", h)`, `Get("/a/5/c")` returns `(h, {"b": "5"}, true)` and
`Get("/a/5/d")` returns found = false. -/
theorem claim6_fixed_enforcement :
    (∀ {H : Type} (path : Str) (r : Route H) (rest : List (Route H)) (i : Nat) (p : param),
      (cleanArray (suffixToks path r.pfx)).length = r.partNames.length →
      r.partNames[i]? = some p → p.fixed = true →
      (suffixToks path r.pfx)[i]? ≠ some p.name →
      matchRoutes path (r :: rest) = matchRoutes path rest) ∧
    Routes.Get (Routes.Add (NewRoutes (H := Nat)) ("/a/:b/c".data) 0) ("/a/5/c".data) =
      some (some 0, some [("b".data, "5".data)], true) ∧
    Routes.Get (Routes.Add (NewRoutes (H := Nat)) ("/a/:b/c".data) 0) ("/a/5/d".data) =
      some (none, none, false) := by
  refine ⟨?_, by decide, by decide⟩
  intro H path r rest i p _ hpi hfix hne
  have hfo : fixedOk r.partNames 0 (suffixToks path r.pfx) = false := by
    refine fixedOk_false_of_mismatch r.partNames (suffixToks path r.pfx) 0 i p hpi hfix ?_
    simpa using hne
  apply matchRoutes_skip
  simp [entrySat, hfo]

/-- Claim C7: first-match-wins order.  Within one bucket the entries are
tried in registration order: an entry satisfying the §4.3 condition (cleaned
token count equals its part count, all fixed parts equal) is returned
immediately, and a non-satisfying entry is skipped in favour of the rest;
concretely, with two same-shape variable patterns under one prefix, the
earlier-registered handler wins. -/
theorem claim7_first_match :
    (∀ {H : Type} (path : Str) (r : Route H) (rest : List (Route H)),
      entrySat path r = true →
      ∃ m, matchRoutes path (r :: rest) = some (some r.function, some m, true)) ∧
    (∀ {H : Type} (path : Str) (r : Route H) (rest : List (Route H)),
      entrySat path r = false →
      matchRoutes path (r :: rest) = matchRoutes path rest) ∧
    Routes.Get (Routes.Add (Routes.Add (NewRoutes (H := Nat)) ("/a/:x".data) 0)
      ("/a/:y".data) 1) ("/a/z".data) = some (some 0, some [("x".data, "z".data)], true) := by
  refine ⟨?_, ?_, by decide⟩
  · intro H path r rest h
    exact matchRoutes_hit path r rest h
  · intro H path r rest h
    exact matchRoutes_skip path r rest h

/-- Claim C8: frame.  `Add(p, h)` appends exactly one entry to the bucket
keyed by the computed static part (creating the bucket when absent) and
leaves every other bucket, and every previously inserted entry, unchanged;
`Get` takes the table as a value and returns only a result, so resolution
mutates nothing by construction. -/
theorem claim8_frame {H : Type} :
    (∀ (t : Routes H) (p : Str) (h : H),
      rootsFind (t.Add p h).roots (rootOf p) =
        some ((rootsFind t.roots (rootOf p)).getD [] ++ [mkRoute p h])) ∧
    (∀ (t : Routes H) (p : Str) (h : H) (k : Str), k ≠ rootOf p →
      rootsFind (t.Add p h).roots k = rootsFind t.roots k) := by
  constructor
  · intro t p h
    exact rootsFind_append_self t.roots (rootOf p) (mkRoute p h)
  · intro t p h k hk
    exact rootsFind_append_ne t.roots (rootOf p) k (mkRoute p h) hk

/-- Claim C9, counterexample: on the empty path the truncation loop does
probe the bucket keyed by the empty string — after `Add("", h)` (whose
computed static key is the empty string), `Get("")` answers from that
bucket, and removing the empty-keyed bucket changes the result of `Get`. -/
theorem claim9_cex :
    Routes.Get (Routes.Add (NewRoutes (H := Nat)) [] 0) [] = some (some 0, some [], true) ∧
    Routes.Get (⟨dropEmptyKey (Routes.Add (NewRoutes (H := Nat)) [] 0).roots⟩ : Routes Nat) [] =
      some (none, none, false) := by
  decide

/-- Claim C9 (amended): for every non-empty path the truncation loop never
probes the empty-string bucket, so removing that bucket leaves `Get`
unchanged; and a pattern whose first token is a parameter (its computed
static key is the empty string while its part list is non-empty) can never
be resolved: `Get` after registering only such a pattern answers not-found
on every path. -/
theorem claim9_empty_bucket {H : Type} :
    (∀ (t : Routes H) (path : Str), path ≠ [] →
      Routes.Get (⟨dropEmptyKey t.roots⟩ : Routes H) path = Routes.Get t path) ∧
    (∀ (q : Str) (g : H) (path : Str), rootOf q = [] →
      (addLoop (splitSlash q) false).2 ≠ [] →
      Routes.Get (Routes.Add (NewRoutes (H := H)) q g) path = some (none, none, false)) := by
  constructor
  · intro t path hpath
    exact getLoop_dropEmpty t.roots path (path.length + 1) path hpath
  · intro q g path hq0 hqseg
    have hroots : (Routes.Add (NewRoutes (H := H)) q g).roots =
        [(([] : Str), [mkRoute q g])] := by
      show rootsAppend (NewRoutes (H := H)).roots (rootOf q) (mkRoute q g) = _
      rw [hq0]
      rfl
    rw [get_eq_selected]
    have hmr : matchRoutes ([] : Str) [mkRoute q g] = some (none, none, false) := by
      have hpfx : (mkRoute q g).pfx = [] := hq0
      have hsuf : suffixToks ([] : Str) (mkRoute q g).pfx = [[]] := by
        rw [hpfx]
        rfl
      have hlen : ¬((cleanArray (suffixToks ([] : Str) (mkRoute q g).pfx)).length =
          (mkRoute q g).partNames.length) := by
        rw [hsuf]
        intro hh
        have h0 : (0 : Nat) = (mkRoute q g).partNames.length := hh
        have hqnil : (mkRoute q g).partNames = [] := List.length_eq_zero.mp h0.symm
        exact hqseg hqnil
      simp [matchRoutes, hlen]
    by_cases hpath : path = []
    · subst hpath
      have hsel : selectedBucket (Routes.Add (NewRoutes (H := H)) q g) [] =
          some [mkRoute q g] := by
        rw [selectedBucket, hroots]
        simp [truncSeq, List.findSome?_cons, rootsFind]
      rw [hsel]
      exact hmr
    · have hsel : selectedBucket (Routes.Add (NewRoutes (H := H)) q g) path = none := by
        rw [selectedBucket, hroots, List.findSome?_eq_none_iff]
        intro k hk
        have hkne := truncSeq_mem_ne_nil (path.length + 1) path hpath k hk
        have hne2 : ¬(([] : Str) = k) := fun hh => hkne hh.symm
        simp [rootsFind, hne2]
      rw [hsel]

/-- Claim C10: raw-index capture on empty tokens.  After `Add("/users/:id", h)`,
the doubled-slash path `/users//42` matches with the captured value for `id`
being the empty raw token (not `42`), while the trailing-slash path
`/users/42/` matches with `id = "42"`. -/
theorem claim10_raw_capture :
    Routes.Get (Routes.Add (NewRoutes (H := Nat)) ("/users/:id".data) 0) ("/users//42".data) =
      some (some 0, some [("id".data, [])], true) ∧
    Routes.Get (Routes.Add (NewRoutes (H := Nat)) ("/users/:id".data) 0) ("/users/42/".data) =
      some (some 0, some [("id".data, "42".data)], true) := by
  decide

end Minima
